import Mathlib

/-!
Shallow embedding of the token-masking and nearest-neighbor utilities in
src/util/utils.py of the Mini-SSL repository. Tensors are total functions over
Fin-indexed shapes with rational entries; torch gather, scatter, argsort and
topk are modelled elementwise, with out-of-range index reads mapped to
Option.none. Sorting ties are broken by smaller index (first occurrence),
the reference behavior for argsort and topk on contiguous CPU tensors.
-/

namespace MiniSSL

/-- Python int() truncation toward zero, applied to a rational number. -/
def pyInt (q : ℚ) : ℤ := if 0 ≤ q then ⌊q⌋ else ⌈q⌉

/-- Python slice l[:k] for an integer k: nonnegative k takes the first k
elements, negative k stops |k| elements before the end. -/
def pyTake {α : Type} (k : ℤ) (l : List α) : List α :=
  if 0 ≤ k then l.take k.toNat else l.take ((l.length : ℤ) + k).toNat

/-- Python slice l[k:] for an integer k, the complement of pyTake. -/
def pyDrop {α : Type} (k : ℤ) (l : List α) : List α :=
  if 0 ≤ k then l.drop k.toNat else l.drop ((l.length : ℤ) + k).toNat

/-- Relation modelling ascending order of torch.argsort and torch.topk with
largest set to false: strictly smaller value first, ties broken by smaller
index (first occurrence). -/
def argsortRel {n : ℕ} (f : Fin n → ℚ) (i j : Fin n) : Prop :=
  f i < f j ∨ (f i = f j ∧ i ≤ j)

instance {n : ℕ} (f : Fin n → ℚ) : DecidableRel (argsortRel f) := fun i j => by
  unfold argsortRel
  infer_instance

instance {n : ℕ} (f : Fin n → ℚ) : IsTrans (Fin n) (argsortRel f) := by
  constructor
  intro a b c hab hbc
  rcases hab with h1 | ⟨h1, h1le⟩ <;> rcases hbc with h2 | ⟨h2, h2le⟩
  · exact Or.inl (lt_trans h1 h2)
  · exact Or.inl (h2 ▸ h1)
  · exact Or.inl (h1 ▸ h2)
  · exact Or.inr ⟨h1.trans h2, le_trans h1le h2le⟩

instance {n : ℕ} (f : Fin n → ℚ) : IsTotal (Fin n) (argsortRel f) := by
  constructor
  intro a b
  rcases lt_trichotomy (f a) (f b) with h | h | h
  · exact Or.inl (Or.inl h)
  · rcases le_total a b with hab | hab
    · exact Or.inl (Or.inr ⟨h, hab⟩)
    · exact Or.inr (Or.inr ⟨h.symm, hab⟩)
  · exact Or.inr (Or.inl h)

/-- torch.argsort along one row: all indices of the row sorted ascending by
value, ties by index. -/
def sortIdx {n : ℕ} (f : Fin n → ℚ) : List (Fin n) :=
  List.insertionSort (argsortRel f) (List.finRange n)

theorem sortIdx_perm {n : ℕ} (f : Fin n → ℚ) : (sortIdx f).Perm (List.finRange n) :=
  List.perm_insertionSort _ _

theorem sortIdx_pairwise {n : ℕ} (f : Fin n → ℚ) :
    (sortIdx f).Pairwise (argsortRel f) :=
  List.sorted_insertionSort _ _

theorem sortIdx_nodup {n : ℕ} (f : Fin n → ℚ) : (sortIdx f).Nodup :=
  (sortIdx_perm f).nodup_iff.mpr (List.nodup_finRange n)

theorem sortIdx_length {n : ℕ} (f : Fin n → ℚ) : (sortIdx f).length = n := by
  simpa using (sortIdx_perm f).length_eq

theorem mem_sortIdx {n : ℕ} (f : Fin n → ℚ) (i : Fin n) : i ∈ sortIdx f :=
  (sortIdx_perm f).mem_iff.mpr (List.mem_finRange i)

theorem sortIdx_head_min {n : ℕ} (f : Fin n → ℚ) (j : Fin n) (t : List (Fin n))
    (h : sortIdx f = j :: t) (x : Fin n) : f j ≤ f x := by
  have hx := mem_sortIdx f x
  rw [h] at hx
  rcases List.mem_cons.mp hx with rfl | hx
  · exact le_refl _
  · have hp := sortIdx_pairwise f
    rw [h] at hp
    have hr := (List.pairwise_cons.mp hp).1 x hx
    rcases hr with h1 | ⟨h1, h2⟩
    · exact le_of_lt h1
    · exact le_of_eq h1

theorem sortIdx_head_tiebreak {n : ℕ} (f : Fin n → ℚ) (j : Fin n) (t : List (Fin n))
    (h : sortIdx f = j :: t) (x : Fin n) (hx : f x = f j) : j ≤ x := by
  have hmem := mem_sortIdx f x
  rw [h] at hmem
  rcases List.mem_cons.mp hmem with rfl | hmem
  · exact le_refl _
  · have hp := sortIdx_pairwise f
    rw [h] at hp
    have hr := (List.pairwise_cons.mp hp).1 x hmem
    rcases hr with h1 | ⟨h1, h2⟩
    · exact absurd hx (ne_of_gt h1)
    · exact h2

theorem sortIdx_head_of_strictMin {n : ℕ} (f : Fin n → ℚ) (i0 : Fin n)
    (hmin : ∀ j, j ≠ i0 → f i0 < f j) :
    ∃ t, sortIdx f = i0 :: t := by
  cases hs : sortIdx f with
  | nil =>
    have := mem_sortIdx f i0
    rw [hs] at this
    exact absurd this (List.not_mem_nil i0)
  | cons j t =>
    by_cases hj : j = i0
    · exact ⟨t, by rw [hj]⟩
    · have h1 : f j ≤ f i0 := sortIdx_head_min f j t hs i0
      have h2 : f i0 < f j := hmin j hj
      exact absurd h1 (not_le.mpr h2)

theorem sortIdx_take_drop {n : ℕ} (f : Fin n → ℚ) (k : ℕ) (i j : Fin n)
    (hi : i ∈ (sortIdx f).take k) (hj : j ∈ (sortIdx f).drop k) :
    argsortRel f i j := by
  have hp := sortIdx_pairwise f
  rw [← List.take_append_drop k (sortIdx f)] at hp
  exact (List.pairwise_append.mp hp).2.2 i hi j hj

/-!
Model of random_token_mask (src/util/utils.py lines 707-749). The call to
torch.rand is replaced by an explicit noise argument; torch.rand draws lie in
the half-open interval from 0 to 1, so theorems that depend on the forced
sentinel value -1 being strictly smallest take a lower bound on the noise as a
hypothesis. The in-place write noise[:, 0] = -1 acts on the freshly created
local noise tensor and is modelled by a pointwise update.
-/

/-- The noise tensor after the optional class-token protection write
noise[:, 0] = -1, guarded by the same condition as in the source. -/
def rtmNoise {B L : ℕ} (mct : Bool) (noise : Fin B → Fin L → ℚ) :
    Fin B → Fin L → ℚ :=
  if mct = false ∧ 0 < L then
    fun b i => if i.val = 0 then -1 else noise b i
  else noise

/-- num_keep before the optional clamp: int(sequence_length * (1 - mask_ratio)). -/
def rtmNumKeepRaw (L : ℕ) (maskRatio : ℚ) : ℤ :=
  pyInt ((L : ℚ) * (1 - maskRatio))

/-- num_keep after the clamp max(1, num_keep), applied under the same
condition as the class-token protection. -/
def rtmNumKeep (L : ℕ) (maskRatio : ℚ) (mct : Bool) : ℤ :=
  if mct = false ∧ 0 < L then max 1 (rtmNumKeepRaw L maskRatio)
  else rtmNumKeepRaw L maskRatio

/-- random_token_mask: argsort the noise row-wise, slice off the first
num_keep positions as idx_keep and the rest as idx_mask. -/
def random_token_mask (B L : ℕ) (maskRatio : ℚ) (mct : Bool)
    (noise : Fin B → Fin L → ℚ) :
    (Fin B → List (Fin L)) × (Fin B → List (Fin L)) :=
  (fun b => pyTake (rtmNumKeep L maskRatio mct) (sortIdx (rtmNoise mct noise b)),
   fun b => pyDrop (rtmNumKeep L maskRatio mct) (sortIdx (rtmNoise mct noise b)))

theorem rtmNumKeepRaw_nonneg (L : ℕ) (maskRatio : ℚ) (hr1 : maskRatio ≤ 1) :
    0 ≤ rtmNumKeepRaw L maskRatio := by
  have hq : (0 : ℚ) ≤ (L : ℚ) * (1 - maskRatio) := by
    apply mul_nonneg (by positivity)
    linarith
  rw [rtmNumKeepRaw, pyInt, if_pos hq]
  exact Int.floor_nonneg.mpr hq

theorem rtmNumKeepRaw_le (L : ℕ) (maskRatio : ℚ) (hr0 : 0 ≤ maskRatio) :
    rtmNumKeepRaw L maskRatio ≤ (L : ℤ) := by
  have hq : (L : ℚ) * (1 - maskRatio) ≤ (L : ℚ) := by
    nlinarith [Nat.cast_nonneg (α := ℚ) L]
  rw [rtmNumKeepRaw, pyInt]
  split
  · have hf := Int.floor_le_floor hq
    rw [Int.floor_natCast] at hf
    exact hf
  · exact Int.ceil_le.mpr (by exact_mod_cast hq)

theorem rtmNumKeep_nonneg (L : ℕ) (maskRatio : ℚ) (mct : Bool)
    (hr1 : maskRatio ≤ 1) : 0 ≤ rtmNumKeep L maskRatio mct := by
  rw [rtmNumKeep]
  split
  · exact le_trans (by omega) (le_max_left 1 _)
  · exact rtmNumKeepRaw_nonneg L maskRatio hr1

theorem rtmNumKeep_le (L : ℕ) (maskRatio : ℚ) (mct : Bool)
    (hL : 1 ≤ L) (hr0 : 0 ≤ maskRatio) :
    rtmNumKeep L maskRatio mct ≤ (L : ℤ) := by
  rw [rtmNumKeep]
  have hraw := rtmNumKeepRaw_le L maskRatio hr0
  split
  · exact max_le (by exact_mod_cast hL) hraw
  · exact hraw

theorem pyTake_append_pyDrop {α : Type} (k : ℤ) (l : List α) (hk : 0 ≤ k) :
    pyTake k l ++ pyDrop k l = l := by
  rw [pyTake, pyDrop, if_pos hk, if_pos hk]
  exact List.take_append_drop _ l

theorem rtm_keep_length (B L : ℕ) (maskRatio : ℚ) (mct : Bool)
    (noise : Fin B → Fin L → ℚ) (hL : 1 ≤ L)
    (hr0 : 0 ≤ maskRatio) (hr1 : maskRatio ≤ 1) (b : Fin B) :
    ((random_token_mask B L maskRatio mct noise).1 b).length =
      (rtmNumKeep L maskRatio mct).toNat := by
  have hk0 := rtmNumKeep_nonneg L maskRatio mct hr1
  have hkL := rtmNumKeep_le L maskRatio mct hL hr0
  simp only [random_token_mask, pyTake, if_pos hk0, List.length_take, sortIdx_length]
  omega

/-- Claim C1: for valid batch size, sequence length and mask ratio, the pair
returned by random_token_mask partitions the positions of every batch row:
keep and mask together are a permutation of all L positions, every position
occurs exactly once in their concatenation, and the keep list has the same
length rtmNumKeep in every row. -/
theorem random_token_mask_partition (B L : ℕ) (maskRatio : ℚ) (mct : Bool)
    (noise : Fin B → Fin L → ℚ) (hB : 1 ≤ B) (hL : 1 ≤ L)
    (hr0 : 0 ≤ maskRatio) (hr1 : maskRatio ≤ 1) (b : Fin B) :
    ((random_token_mask B L maskRatio mct noise).1 b ++
      (random_token_mask B L maskRatio mct noise).2 b).Perm (List.finRange L) ∧
    (∀ p : Fin L,
      ((random_token_mask B L maskRatio mct noise).1 b ++
        (random_token_mask B L maskRatio mct noise).2 b).count p = 1) ∧
    ((random_token_mask B L maskRatio mct noise).1 b).length =
      (rtmNumKeep L maskRatio mct).toNat := by
  have hk0 := rtmNumKeep_nonneg L maskRatio mct hr1
  have happ : (random_token_mask B L maskRatio mct noise).1 b ++
      (random_token_mask B L maskRatio mct noise).2 b =
      sortIdx (rtmNoise mct noise b) := by
    simp only [random_token_mask]
    exact pyTake_append_pyDrop _ _ hk0
  have hperm : ((random_token_mask B L maskRatio mct noise).1 b ++
      (random_token_mask B L maskRatio mct noise).2 b).Perm (List.finRange L) := by
    rw [happ]; exact sortIdx_perm _
  refine ⟨hperm, fun p => ?_, rtm_keep_length B L maskRatio mct noise hL hr0 hr1 b⟩
  rw [hperm.count_eq]
  exact List.count_eq_one_of_mem (List.nodup_finRange L) (List.mem_finRange p)

/-- Claim C4: with mask_class_token false, position 0 belongs to idx_keep in
every batch row, for every mask ratio between 0 and 1 inclusive; the noise
hypothesis records that torch.rand draws exceed the sentinel -1. -/
theorem random_token_mask_keeps_class_token (B L : ℕ) (maskRatio : ℚ)
    (noise : Fin B → Fin L → ℚ) (hB : 1 ≤ B) (hL : 1 ≤ L)
    (hr0 : 0 ≤ maskRatio) (hr1 : maskRatio ≤ 1)
    (hnoise : ∀ b i, (-1 : ℚ) < noise b i) (b : Fin B) :
    (⟨0, by omega⟩ : Fin L) ∈ (random_token_mask B L maskRatio false noise).1 b := by
  have hcond : (false = false ∧ 0 < L) := ⟨rfl, by omega⟩
  have hnz : rtmNoise false noise b = fun i => if i.val = 0 then -1 else noise b i := by
    unfold rtmNoise
    rw [if_pos hcond]
  have hmin : ∀ j, j ≠ (⟨0, by omega⟩ : Fin L) →
      rtmNoise false noise b (⟨0, by omega⟩ : Fin L) < rtmNoise false noise b j := by
    intro j hj
    have hjv : j.val ≠ 0 := fun hv => hj (Fin.ext hv)
    have h0 : (fun i : Fin L => if i.val = 0 then (-1 : ℚ) else noise b i)
        (⟨0, by omega⟩ : Fin L) = -1 := by simp
    have hjval : (fun i : Fin L => if i.val = 0 then (-1 : ℚ) else noise b i) j =
        noise b j := by simp [hjv]
    rw [hnz, h0, hjval]
    exact hnoise b j
  obtain ⟨t, ht⟩ := sortIdx_head_of_strictMin (rtmNoise false noise b) _ hmin
  have hk0 : 0 ≤ rtmNumKeep L maskRatio false := rtmNumKeep_nonneg L maskRatio false hr1
  have hk1 : 1 ≤ (rtmNumKeep L maskRatio false).toNat := by
    have h1 : 1 ≤ max 1 (rtmNumKeepRaw L maskRatio) := le_max_left 1 _
    rw [rtmNumKeep, if_pos hcond]
    omega
  obtain ⟨m, hm⟩ : ∃ m, (rtmNumKeep L maskRatio false).toNat = m + 1 :=
    ⟨(rtmNumKeep L maskRatio false).toNat - 1, by omega⟩
  simp only [random_token_mask, pyTake, if_pos hk0]
  rw [ht, hm, List.take_succ_cons]
  exact List.mem_cons_self _ _

/-- Claim C5: the number of kept positions equals the floor of
L * (1 - mask_ratio), clamped to at least 1 exactly when mask_class_token is
false; no clamp is applied when mask_class_token is true. -/
theorem random_token_mask_num_keep_count (B L : ℕ) (maskRatio : ℚ) (mct : Bool)
    (noise : Fin B → Fin L → ℚ) (hB : 1 ≤ B) (hL : 1 ≤ L)
    (hr0 : 0 ≤ maskRatio) (hr1 : maskRatio ≤ 1) (b : Fin B) :
    (((random_token_mask B L maskRatio mct noise).1 b).length : ℤ) =
      if mct = true then ⌊(L : ℚ) * (1 - maskRatio)⌋
      else max 1 ⌊(L : ℚ) * (1 - maskRatio)⌋ := by
  have hq : (0 : ℚ) ≤ (L : ℚ) * (1 - maskRatio) := by
    apply mul_nonneg (by positivity)
    linarith
  have hrawfloor : rtmNumKeepRaw L maskRatio = ⌊(L : ℚ) * (1 - maskRatio)⌋ := by
    rw [rtmNumKeepRaw, pyInt, if_pos hq]
  have hlen := rtm_keep_length B L maskRatio mct noise hL hr0 hr1 b
  rw [hlen]
  have hk0 := rtmNumKeep_nonneg L maskRatio mct hr1
  rw [Int.toNat_of_nonneg hk0, rtmNumKeep, hrawfloor]
  cases mct with
  | false =>
    rw [if_pos ⟨rfl, by omega⟩, if_neg (by simp)]
  | true =>
    rw [if_neg (by simp), if_pos rfl]

/-- Claim C10: with mask_class_token true and mask ratio 1 no clamp applies:
idx_keep is empty and idx_mask covers all L positions of every batch row,
position 0 included. -/
theorem random_token_mask_ratio_one_all_masked (B L : ℕ)
    (noise : Fin B → Fin L → ℚ) (hB : 1 ≤ B) (hL : 1 ≤ L) (b : Fin B) :
    (random_token_mask B L 1 true noise).1 b = [] ∧
    ((random_token_mask B L 1 true noise).2 b).Perm (List.finRange L) ∧
    (⟨0, by omega⟩ : Fin L) ∈ (random_token_mask B L 1 true noise).2 b := by
  have hnk : rtmNumKeep L 1 true = 0 := by
    rw [rtmNumKeep, if_neg (by simp), rtmNumKeepRaw]
    norm_num [pyInt]
  have hdrop : (random_token_mask B L 1 true noise).2 b =
      sortIdx (rtmNoise true noise b) := by
    simp only [random_token_mask, pyDrop, hnk]
    norm_num
  have hperm : ((random_token_mask B L 1 true noise).2 b).Perm (List.finRange L) := by
    rw [hdrop]; exact sortIdx_perm _
  refine ⟨?_, hperm, hperm.mem_iff.mpr (List.mem_finRange _)⟩
  simp only [random_token_mask, pyTake, hnk]
  norm_num

/-!
Model of the index utilities (src/util/utils.py lines 576-657). A token batch
of shape (B, L, D) is a function over Fin-indexed coordinates; an index tensor
of shape (B, K) carries integer entries. torch.gather and torch.scatter along
dimension 1 read every entry of the (expanded) index tensor and raise a
runtime error when any read entry lies outside the sequence dimension; this
is modelled with Option. With duplicate scatter indices torch writes
sequentially, so the last duplicate wins; the model fixes that order.
-/

/-- A (batch_size, sequence_length, dim) token tensor with rational entries. -/
def Tensor3 (B L D : ℕ) : Type := Fin B → Fin L → Fin D → ℚ

/-- A (batch_size, index_length) integer index tensor. -/
def IndexArr (B K : ℕ) : Type := Fin B → Fin K → ℤ

/-- All entries of the index tensor lie inside the sequence dimension. -/
def inRange (L : ℕ) {B K : ℕ} (index : IndexArr B K) : Prop :=
  ∀ (b : Fin B) (k : Fin K), 0 ≤ index b k ∧ index b k < (L : ℤ)

instance (L : ℕ) {B K : ℕ} (index : IndexArr B K) : Decidable (inRange L index) := by
  unfold inRange
  infer_instance

/-- expand_index_like: repeat each index entry along a new last dimension of
size D (unsqueeze followed by expand). -/
def expand_index_like (D : ℕ) {B K : ℕ} (index : IndexArr B K) :
    Fin B → Fin K → Fin D → ℤ :=
  fun b k _ => index b k

/-- torch.gather along dimension 1: the output at (b, k, d) is the token at
(b, index3 b k d, d); fails when any read index entry is out of range. -/
def gatherDim1 {B L D K : ℕ} (tokens : Tensor3 B L D)
    (index3 : Fin B → Fin K → Fin D → ℤ) : Option (Tensor3 B K D) :=
  if h : ∀ (b : Fin B) (k : Fin K) (d : Fin D),
      0 ≤ index3 b k d ∧ index3 b k d < (L : ℤ) then
    some (fun b k d => tokens b ⟨(index3 b k d).toNat, by
      have hb := h b k d
      omega⟩ d)
  else none

/-- get_at_index: expand the index and gather. -/
def get_at_index {B L D K : ℕ} (tokens : Tensor3 B L D) (index : IndexArr B K) :
    Option (Tensor3 B K D) :=
  gatherDim1 tokens (expand_index_like D index)

/-- torch.scatter along dimension 1: a copy of tokens where slot
(b, index3 b k d, d) holds value at (b, k, d); among duplicate indices the
last write wins. Fails when any index entry is out of range. -/
def scatterDim1 {B L D K : ℕ} (tokens : Tensor3 B L D)
    (index3 : Fin B → Fin K → Fin D → ℤ) (value : Tensor3 B K D) :
    Option (Tensor3 B L D) :=
  if ∀ (b : Fin B) (k : Fin K) (d : Fin D),
      0 ≤ index3 b k d ∧ index3 b k d < (L : ℤ) then
    some (fun b p d =>
      ((List.finRange K).reverse.find? (fun k => index3 b k d == (p.val : ℤ))).elim
        (tokens b p d) (fun k => value b k d))
  else none

/-- set_at_index: expand the index and scatter the value tensor. -/
def set_at_index {B L D K : ℕ} (tokens : Tensor3 B L D) (index : IndexArr B K)
    (value : Tensor3 B K D) : Option (Tensor3 B L D) :=
  scatterDim1 tokens (expand_index_like D index) value

/-- mask_at_index: scatter ones into a fresh zero tensor at the index, then
blend (1 - mask) * tokens + mask * mask_token with the (1, 1, D) mask token
broadcast over batch and positions. -/
def mask_at_index {B L D K : ℕ} (tokens : Tensor3 B L D) (index : IndexArr B K)
    (maskToken : Fin D → ℚ) : Option (Tensor3 B L D) :=
  (set_at_index (fun _ _ _ => (0 : ℚ)) index (fun _ _ _ => (1 : ℚ))).map
    (fun mask => fun b p d =>
      (1 - mask b p d) * tokens b p d + mask b p d * maskToken d)

theorem expand_guard_of_inRange {B L K D : ℕ} (index : IndexArr B K)
    (h : inRange L index) :
    ∀ (b : Fin B) (k : Fin K) (d : Fin D),
      0 ≤ expand_index_like D index b k d ∧ expand_index_like D index b k d < (L : ℤ) :=
  fun b k _ => h b k

/-- Claim C6: gathering tokens at an in-range index and scattering the
gathered values back at the same index reproduces the original tokens,
duplicate index entries included. -/
theorem set_get_roundtrip {B L D K : ℕ} (tokens : Tensor3 B L D)
    (index : IndexArr B K) (h : inRange L index) :
    (get_at_index tokens index).bind (fun v => set_at_index tokens index v) =
      some tokens := by
  rw [get_at_index, gatherDim1, dif_pos (expand_guard_of_inRange index h)]
  simp only [Option.some_bind]
  rw [set_at_index, scatterDim1, if_pos (expand_guard_of_inRange index h)]
  congr 1
  funext b p d
  cases hf : (List.finRange K).reverse.find?
      (fun k => expand_index_like D index b k d == (p.val : ℤ)) with
  | none => simp only [Option.elim_none]
  | some k =>
    simp only [Option.elim_some]
    have hk := List.find?_some hf
    have hik : index b k = (p.val : ℤ) := by
      simpa [expand_index_like] using hk
    have hfin : (⟨(expand_index_like D index b k d).toNat, by
        have hb := expand_guard_of_inRange (L := L) index h b k d
        omega⟩ : Fin L) = p := by
      apply Fin.ext
      simp [expand_index_like, hik]
    rw [hfin]

/-- Claim C7: on an in-range index, mask_at_index replaces exactly the
positions listed in the index row with the broadcast mask token and leaves
every other position of tokens unchanged. -/
theorem mask_at_index_spec {B L D K : ℕ} (tokens : Tensor3 B L D)
    (index : IndexArr B K) (maskToken : Fin D → ℚ) (h : inRange L index) :
    ∃ result, mask_at_index tokens index maskToken = some result ∧
      ∀ (b : Fin B) (p : Fin L) (d : Fin D),
        result b p d =
          if ∃ k : Fin K, index b k = (p.val : ℤ) then maskToken d
          else tokens b p d := by
  rw [mask_at_index, set_at_index, scatterDim1, if_pos (expand_guard_of_inRange index h)]
  simp only [Option.map_some']
  refine ⟨_, rfl, ?_⟩
  intro b p d
  cases hf : (List.finRange K).reverse.find?
      (fun k => expand_index_like D index b k d == (p.val : ℤ)) with
  | none =>
    simp only [Option.elim_none]
    have hnone : ∀ k : Fin K, ¬ index b k = (p.val : ℤ) := by
      intro k hk
      have hmem : k ∈ (List.finRange K).reverse := by
        simp [List.mem_reverse, List.mem_finRange]
      have := List.find?_eq_none.mp hf k hmem
      simp [expand_index_like, hk] at this
    rw [if_neg (by push_neg; exact fun k => hnone k)]
    ring
  | some k =>
    simp only [Option.elim_some]
    have hk := List.find?_some hf
    have hik : index b k = (p.val : ℤ) := by
      simpa [expand_index_like] using hk
    rw [if_pos ⟨k, hik⟩]
    ring

/-- Claim C8 counterexample: with feature dimension 0 the expanded index
tensor is empty, the gather reads nothing, and get_at_index succeeds even
though its index entry 5 is out of range for sequence length 1, contradicting
the claimed fail-iff-out-of-range equivalence at D = 0. -/
theorem get_at_index_zero_dim_no_error :
    (1 : ℤ) ≤ (5 : ℤ) ∧
    get_at_index (K := 1) (fun _ _ _ => (0 : ℚ) : Tensor3 1 1 0)
      (fun _ _ => (5 : ℤ)) ≠ none := by
  refine ⟨by norm_num, ?_⟩
  rw [get_at_index, gatherDim1, dif_pos (fun _ _ d => d.elim0)]
  exact fun hc => Option.noConfusion hc

/-- Claim C8 amended: for feature dimension at least 1, get_at_index fails
precisely when some index entry is negative or at least the sequence length,
and on an in-range index it returns the tensor whose slot (b, k, d) is the
token at position index b k. -/
theorem get_at_index_error_iff {B L D K : ℕ} (tokens : Tensor3 B L D)
    (index : IndexArr B K) (hD : 1 ≤ D) :
    (get_at_index tokens index = none ↔
      ∃ (b : Fin B) (k : Fin K), index b k < 0 ∨ (L : ℤ) ≤ index b k) ∧
    ∀ (h : inRange L index), ∃ g, get_at_index tokens index = some g ∧
      ∀ (b : Fin B) (k : Fin K) (d : Fin D) (hk : (index b k).toNat < L),
        g b k d = tokens b ⟨(index b k).toNat, hk⟩ d := by
  constructor
  · constructor
    · intro hnone
      rw [get_at_index, gatherDim1] at hnone
      by_cases hg : ∀ (b : Fin B) (k : Fin K) (d : Fin D),
          0 ≤ expand_index_like D index b k d ∧
            expand_index_like D index b k d < (L : ℤ)
      · rw [dif_pos hg] at hnone
        exact absurd hnone (by simp)
      · push_neg at hg
        obtain ⟨b, k, d, hbd⟩ := hg
        simp only [expand_index_like] at hbd
        refine ⟨b, k, ?_⟩
        by_cases hle : 0 ≤ index b k
        · exact Or.inr (hbd hle)
        · exact Or.inl (by omega)
    · rintro ⟨b, k, hbk⟩
      rw [get_at_index, gatherDim1, dif_neg]
      intro hg
      have hb := hg b k ⟨0, hD⟩
      simp only [expand_index_like] at hb
      omega
  · intro h
    rw [get_at_index, gatherDim1, dif_pos (expand_guard_of_inRange index h)]
    refine ⟨_, rfl, ?_⟩
    intro b k d hk
    rfl

/-!
Model of nearest_neighbors (src/util/utils.py lines 752-809). The two calls
to torch.topk with largest false and sorted output are modelled by taking a
prefix of the stable value-then-index sort; the two torch.gather calls read
at indices produced by topk, which are always in range, so they are modelled
by direct indexing. Output tensors of shape (batch, num_matches, dim) are
per-batch lists of feature vectors.
-/

/-- torch.topk along one row with largest false and sorted output: the k
indices with smallest values, ascending, ties by smaller index. -/
def topkIdx {n : ℕ} (k : ℕ) (f : Fin n → ℚ) : List (Fin n) :=
  (sortIdx f).take k

/-- Normalization of num_matches: None, -1, or any value exceeding the input
map size means the full input map size. -/
def normalizeMatches (I : ℕ) (numMatches : Option ℤ) : ℤ :=
  match numMatches with
  | none => (I : ℤ)
  | some m => if m = -1 ∨ (I : ℤ) < m then (I : ℤ) else m

/-- Index of the nearest candidate of one input row: topk with k equal to 1
along the candidate dimension. The result is none only for an empty
candidate dimension, where torch.topk raises. -/
def nnNearest {B I C : ℕ} (distances : Fin B → Fin I → Fin C → ℚ)
    (b : Fin B) (i : Fin I) : Option (Fin C) :=
  (topkIdx 1 (distances b i)).head?

/-- The value returned by topk with k equal to 1: the distance of an input
row to its nearest candidate (0 as a vacuous default for an empty candidate
dimension). -/
def nnMinDist {B I C : ℕ} (distances : Fin B → Fin I → Fin C → ℚ)
    (b : Fin B) (i : Fin I) : ℚ :=
  (nnNearest distances b i).elim 0 (fun j => distances b i j)

/-- min_indices: the M input rows with smallest nearest-candidate distance,
ascending by that distance. -/
def nnMinIndices {B I C : ℕ} (distances : Fin B → Fin I → Fin C → ℚ)
    (M : ℕ) (b : Fin B) : List (Fin I) :=
  topkIdx M (fun i => nnMinDist distances b i)

/-- nearest_neighbors: select the num_matches input rows with smallest
nearest-candidate distance and pair each, in the same order, with the row of
candidate_maps at its recorded nearest index. -/
def nearest_neighbors {B I C D : ℕ} (inputMaps : Fin B → Fin I → Fin D → ℚ)
    (candidateMaps : Fin B → Fin C → Fin D → ℚ)
    (distances : Fin B → Fin I → Fin C → ℚ) (numMatches : Option ℤ) :
    (Fin B → List (Fin D → ℚ)) × (Fin B → List (Fin D → ℚ)) :=
  (fun b => (nnMinIndices distances (normalizeMatches I numMatches).toNat b).map
      (fun i => inputMaps b i),
   fun b => (nnMinIndices distances (normalizeMatches I numMatches).toNat b).map
      (fun i => (nnNearest distances b i).elim (fun _ => 0)
        (fun j => candidateMaps b j)))

theorem nnMinDist_spec {B I C : ℕ} (distances : Fin B → Fin I → Fin C → ℚ)
    (hC : 1 ≤ C) (b : Fin B) (i : Fin I) :
    ∃ j : Fin C, nnNearest distances b i = some j ∧
      nnMinDist distances b i = distances b i j ∧
      (∀ j2 : Fin C, distances b i j ≤ distances b i j2) ∧
      (∀ j2 : Fin C, distances b i j2 = distances b i j → j ≤ j2) := by
  cases hs : sortIdx (distances b i) with
  | nil =>
    exfalso
    have hlen := sortIdx_length (distances b i)
    rw [hs] at hlen
    simp at hlen
    omega
  | cons j t =>
    have hnear : nnNearest distances b i = some j := by
      rw [nnNearest, topkIdx, hs, List.take_succ_cons]
      rfl
    refine ⟨j, hnear, ?_, ?_, ?_⟩
    · rw [nnMinDist, hnear, Option.elim_some]
    · exact sortIdx_head_min (distances b i) j t hs
    · exact fun j2 hj2 => sortIdx_head_tiebreak (distances b i) j t hs j2 hj2

theorem normalizeMatches_of_le (I : ℕ) (k : ℤ) (hk1 : 1 ≤ k) (hkI : k ≤ (I : ℤ)) :
    normalizeMatches I (some k) = k := by
  rw [normalizeMatches]
  rw [if_neg]
  push_neg
  constructor
  · omega
  · omega

/-- Claim C2: for a distance tensor with at least one candidate and any
num_matches k between 1 and I, nearest_neighbors keeps exactly the k input
rows whose nearest-candidate distance is among the k smallest, in ascending
order of that distance with ties broken by input index, and with k equal to
I it keeps all I inputs in that order; the nearest-candidate distance of a
row is the true minimum over its candidates. -/
theorem nearest_neighbors_selects_topk {B I C D : ℕ}
    (inputMaps : Fin B → Fin I → Fin D → ℚ)
    (candidateMaps : Fin B → Fin C → Fin D → ℚ)
    (distances : Fin B → Fin I → Fin C → ℚ) (k : ℤ)
    (hC : 1 ≤ C) (hk1 : 1 ≤ k) (hkI : k ≤ (I : ℤ)) (b : Fin B) :
    (∀ i : Fin I, (∀ j : Fin C, nnMinDist distances b i ≤ distances b i j) ∧
      ∃ j : Fin C, nnMinDist distances b i = distances b i j) ∧
    (nearest_neighbors inputMaps candidateMaps distances (some k)).1 b =
      (nnMinIndices distances k.toNat b).map (fun i => inputMaps b i) ∧
    (nnMinIndices distances k.toNat b).length = k.toNat ∧
    (nnMinIndices distances k.toNat b).Nodup ∧
    (nnMinIndices distances k.toNat b).Pairwise (fun i1 i2 =>
      nnMinDist distances b i1 < nnMinDist distances b i2 ∨
        (nnMinDist distances b i1 = nnMinDist distances b i2 ∧ i1 < i2)) ∧
    (∀ i1 ∈ nnMinIndices distances k.toNat b,
      ∀ i2 : Fin I, i2 ∉ nnMinIndices distances k.toNat b →
        nnMinDist distances b i1 < nnMinDist distances b i2 ∨
          (nnMinDist distances b i1 = nnMinDist distances b i2 ∧ i1 < i2)) ∧
    (k = (I : ℤ) → (nnMinIndices distances k.toNat b).Perm (List.finRange I)) := by
  have hnorm : normalizeMatches I (some k) = k := normalizeMatches_of_le I k hk1 hkI
  have hsub : List.Sublist (nnMinIndices distances k.toNat b)
      (sortIdx (fun i => nnMinDist distances b i)) :=
    List.take_sublist _ _
  have hnodup : (nnMinIndices distances k.toNat b).Nodup :=
    hsub.nodup (sortIdx_nodup _)
  have hstrict : ∀ i1 i2 : Fin I,
      argsortRel (fun i => nnMinDist distances b i) i1 i2 → i1 ≠ i2 →
      nnMinDist distances b i1 < nnMinDist distances b i2 ∨
        (nnMinDist distances b i1 = nnMinDist distances b i2 ∧ i1 < i2) := by
    intro i1 i2 hle hne
    rcases hle with h1 | ⟨h1, h2⟩
    · exact Or.inl h1
    · exact Or.inr ⟨h1, lt_of_le_of_ne h2 hne⟩
  refine ⟨?_, ?_, ?_, hnodup, ?_, ?_, ?_⟩
  · intro i
    obtain ⟨j, hnear, hval, hmin, htie⟩ := nnMinDist_spec distances hC b i
    exact ⟨fun j2 => hval ▸ hmin j2, j, hval⟩
  · rw [nearest_neighbors, hnorm]
  · rw [nnMinIndices, topkIdx, List.length_take, sortIdx_length]
    omega
  · have hpw : (nnMinIndices distances k.toNat b).Pairwise
        (argsortRel (fun i => nnMinDist distances b i)) :=
      List.Pairwise.sublist hsub (sortIdx_pairwise _)
    have hcomb := hpw.and hnodup
    exact hcomb.imp (fun h => hstrict _ _ h.1 h.2)
  · intro i1 h1 i2 h2
    have hi2mem : i2 ∈ sortIdx (fun i => nnMinDist distances b i) := mem_sortIdx _ i2
    rw [← List.take_append_drop k.toNat (sortIdx (fun i => nnMinDist distances b i)),
      List.mem_append] at hi2mem
    have hi2drop : i2 ∈ (sortIdx (fun i => nnMinDist distances b i)).drop k.toNat := by
      rcases hi2mem with hmem | hmem
      · exact absurd hmem h2
      · exact hmem
    have hle := sortIdx_take_drop (fun i => nnMinDist distances b i) k.toNat i1 i2 h1 hi2drop
    have hne : i1 ≠ i2 := fun he => h2 (he ▸ h1)
    exact hstrict i1 i2 hle hne
  · intro hkeq
    have hlen : (sortIdx (fun i => nnMinDist distances b i)).length ≤ k.toNat := by
      rw [sortIdx_length]
      omega
    rw [nnMinIndices, topkIdx, List.take_of_length_le hlen]
    exact sortIdx_perm _

/-- Concrete distance tensor of the spec scenario: batch 1, two inputs, two
candidates, distances [[0.1, 0.9], [0.5, 0.05]]. -/
def exDistances : Fin 1 → Fin 2 → Fin 2 → ℚ :=
  fun _ i j =>
    if i.val = 0 then
      (if j.val = 0 then ⟨1, 10, by decide, by decide⟩
       else ⟨9, 10, by decide, by decide⟩)
    else
      (if j.val = 0 then ⟨1, 2, by decide, by decide⟩
       else ⟨1, 20, by decide, by decide⟩)

/-- Concrete input maps for the spec scenario; row 0 carries the constant
feature 0 and row 1 the constant feature 1, so rows are distinguishable. -/
def exInputMaps : Fin 1 → Fin 2 → Fin 1 → ℚ :=
  fun _ i _ => if i.val = 0 then 0 else 1

/-- Concrete candidate maps for the spec scenario; row 0 carries the constant
feature 10 and row 1 the constant feature 11. -/
def exCandidateMaps : Fin 1 → Fin 2 → Fin 1 → ℚ :=
  fun _ j _ => if j.val = 0 then 10 else 11

/-- Claim C3: every returned pair at slot s is an exact (input row, nearest
candidate row) pair of the original data: the first output at s is the input
row of the s-th selected index i, the second output at s is the candidate
row at an index j that attains the minimum distance of row i with
first-occurrence tie-break; and on the concrete spec scenario with
num_matches 1 the returned pair is input row 1 with candidate row 1. -/
theorem nearest_neighbors_exact_pairs {B I C D : ℕ}
    (inputMaps : Fin B → Fin I → Fin D → ℚ)
    (candidateMaps : Fin B → Fin C → Fin D → ℚ)
    (distances : Fin B → Fin I → Fin C → ℚ) (k : ℤ)
    (hC : 1 ≤ C) (hk1 : 1 ≤ k) (hkI : k ≤ (I : ℤ)) (b : Fin B) :
    (∀ s : ℕ, s < k.toNat →
      ∃ (i : Fin I) (j : Fin C),
        (nnMinIndices distances k.toNat b)[s]? = some i ∧
        nnNearest distances b i = some j ∧
        ((nearest_neighbors inputMaps candidateMaps distances (some k)).1 b)[s]? =
          some (inputMaps b i) ∧
        ((nearest_neighbors inputMaps candidateMaps distances (some k)).2 b)[s]? =
          some (candidateMaps b j) ∧
        (∀ j2 : Fin C, distances b i j ≤ distances b i j2) ∧
        (∀ j2 : Fin C, distances b i j2 = distances b i j → j ≤ j2)) ∧
    (nearest_neighbors exInputMaps exCandidateMaps exDistances (some 1)).1 0 =
      [exInputMaps 0 1] ∧
    (nearest_neighbors exInputMaps exCandidateMaps exDistances (some 1)).2 0 =
      [exCandidateMaps 0 1] := by
  have hnorm : normalizeMatches I (some k) = k := normalizeMatches_of_le I k hk1 hkI
  have hlen : (nnMinIndices distances k.toNat b).length = k.toNat := by
    rw [nnMinIndices, topkIdx, List.length_take, sortIdx_length]
    omega
  refine ⟨?_, by decide, by decide⟩
  intro s hs
  have hsl : s < (nnMinIndices distances k.toNat b).length := by
    rw [hlen]
    exact hs
  obtain ⟨j, hnear, hval, hmin, htie⟩ :=
    nnMinDist_spec distances hC b ((nnMinIndices distances k.toNat b)[s])
  refine ⟨(nnMinIndices distances k.toNat b)[s], j,
    List.getElem?_eq_getElem hsl, hnear, ?_, ?_, hmin, htie⟩
  · simp only [nearest_neighbors, hnorm, List.getElem?_map,
      List.getElem?_eq_getElem hsl, Option.map_some']
  · simp only [nearest_neighbors, hnorm, List.getElem?_map,
      List.getElem?_eq_getElem hsl, Option.map_some', hnear, Option.elim_some]

/-!
Concrete instantiations of the theorems above, discharging their hypotheses
at explicit inputs.
-/

theorem random_token_mask_partition_w :
    ((random_token_mask 1 2 1 true (fun _ _ => 0)).1 0 ++
      (random_token_mask 1 2 1 true (fun _ _ => 0)).2 0).Perm (List.finRange 2) ∧
    ((random_token_mask 1 2 1 true (fun _ _ => 0)).1 0 ++
      (random_token_mask 1 2 1 true (fun _ _ => 0)).2 0).count (0 : Fin 2) = 1 ∧
    ((random_token_mask 1 2 1 true (fun _ _ => 0)).1 0).length =
      (rtmNumKeep 2 1 true).toNat :=
  ⟨(random_token_mask_partition 1 2 1 true (fun _ _ => 0) (by decide) (by decide)
      (by decide) (by decide) 0).1,
   (random_token_mask_partition 1 2 1 true (fun _ _ => 0) (by decide) (by decide)
      (by decide) (by decide) 0).2.1 0,
   (random_token_mask_partition 1 2 1 true (fun _ _ => 0) (by decide) (by decide)
      (by decide) (by decide) 0).2.2⟩

theorem random_token_mask_keeps_class_token_w :
    (⟨0, by omega⟩ : Fin 2) ∈ (random_token_mask 1 2 1 false (fun _ _ => 0)).1 0 :=
  random_token_mask_keeps_class_token 1 2 1 (fun _ _ => 0) (by decide) (by decide)
    (by decide) (by decide) (by decide) 0

theorem random_token_mask_num_keep_count_w :
    (((random_token_mask 1 2 1 false (fun _ _ => 0)).1 0).length : ℤ) =
      if false = true then ⌊(2 : ℚ) * (1 - 1)⌋ else max 1 ⌊(2 : ℚ) * (1 - 1)⌋ :=
  random_token_mask_num_keep_count 1 2 1 false (fun _ _ => 0) (by decide) (by decide)
    (by decide) (by decide) 0

theorem random_token_mask_ratio_one_all_masked_w :
    (random_token_mask 1 2 1 true (fun _ _ => 0)).1 0 = [] ∧
    ((random_token_mask 1 2 1 true (fun _ _ => 0)).2 0).Perm (List.finRange 2) ∧
    (⟨0, by omega⟩ : Fin 2) ∈ (random_token_mask 1 2 1 true (fun _ _ => 0)).2 0 :=
  random_token_mask_ratio_one_all_masked 1 2 (fun _ _ => 0) (by decide) (by decide) 0

theorem set_get_roundtrip_w :
    (get_at_index (fun _ p _ => (p.val : ℚ) : Tensor3 1 2 1)
      (fun _ _ => (0 : ℤ) : IndexArr 1 2)).bind
      (fun v => set_at_index (fun _ p _ => (p.val : ℚ) : Tensor3 1 2 1)
        (fun _ _ => (0 : ℤ) : IndexArr 1 2) v) =
      some (fun _ p _ => (p.val : ℚ)) :=
  set_get_roundtrip (fun _ p _ => (p.val : ℚ)) (fun _ _ => (0 : ℤ)) (by decide)

theorem mask_at_index_spec_w :
    mask_at_index (fun _ p _ => (p.val : ℚ) : Tensor3 1 2 1)
      (fun _ _ => (0 : ℤ) : IndexArr 1 2) (fun _ => 1) ≠ none := by
  obtain ⟨r, hr, hprop⟩ := mask_at_index_spec
    (fun _ p _ => (p.val : ℚ) : Tensor3 1 2 1)
    (fun _ _ => (0 : ℤ) : IndexArr 1 2) (fun _ => 1) (by decide)
  rw [hr]
  exact fun hc => Option.noConfusion hc

theorem get_at_index_error_iff_w :
    get_at_index (fun _ _ _ => (0 : ℚ) : Tensor3 1 1 1)
      (fun _ _ => (5 : ℤ) : IndexArr 1 1) = none :=
  (get_at_index_error_iff (fun _ _ _ => (0 : ℚ)) (fun _ _ => (5 : ℤ))
    (by decide)).1.mpr ⟨0, 0, by decide⟩

theorem nearest_neighbors_selects_topk_w :
    (nearest_neighbors exInputMaps exCandidateMaps exDistances (some 1)).1 0 =
      (nnMinIndices exDistances (1 : ℤ).toNat 0).map (fun i => exInputMaps 0 i) ∧
    (nnMinIndices exDistances (1 : ℤ).toNat 0).length = (1 : ℤ).toNat ∧
    (nnMinIndices exDistances (1 : ℤ).toNat 0).Nodup :=
  ⟨(nearest_neighbors_selects_topk exInputMaps exCandidateMaps exDistances 1
      (by decide) (by decide) (by decide) 0).2.1,
   (nearest_neighbors_selects_topk exInputMaps exCandidateMaps exDistances 1
      (by decide) (by decide) (by decide) 0).2.2.1,
   (nearest_neighbors_selects_topk exInputMaps exCandidateMaps exDistances 1
      (by decide) (by decide) (by decide) 0).2.2.2.1⟩

theorem nearest_neighbors_exact_pairs_w :
    (nearest_neighbors exInputMaps exCandidateMaps exDistances (some 1)).1 0 =
      [exInputMaps 0 1] ∧
    (nearest_neighbors exInputMaps exCandidateMaps exDistances (some 1)).2 0 =
      [exCandidateMaps 0 1] :=
  ⟨(nearest_neighbors_exact_pairs exInputMaps exCandidateMaps exDistances 1
      (by decide) (by decide) (by decide) 0).2.1,
   (nearest_neighbors_exact_pairs exInputMaps exCandidateMaps exDistances 1
      (by decide) (by decide) (by decide) 0).2.2⟩

end MiniSSL
